import Mathlib

/-!
Shallow embedding of the savvy/cvcf core: the `vc::cmf` marker and writer
(`src/include/cmf_reader.hpp`), the `vc::cvcf` allele-frequency routine
(`src/src/cvcf_reader.cpp`), and the sparse vector
`savvy::compressed_vector` (`src/include/savvy/compressed_vector.hpp`).
Bytes are modelled as natural numbers, machine integers as naturals with
explicit wraparound where overflow can occur, and IEEE doubles as exact
rationals extended with infinity and NaN markers.
-/

namespace vc

/-- Modelled from the spec: the three-valued allele status enumeration
(`allele_status.hpp` is not under `src/`; the spec §3 gives the three
values `HAS_REF`, `HAS_ALT`, `IS_MISSING`). -/
inductive allele_status where
  | has_ref
  | has_alt
  | is_missing
deriving DecidableEq, Repr

namespace cmf

/-- `vc::cmf::marker::sparse_vector_allele` (cmf_reader.hpp:21-31): an
offset paired with an allele status. -/
structure sparse_vector_allele where
  offset : Nat
  status : allele_status
deriving DecidableEq, Repr

/-- `vc::cmf::marker` (cmf_reader.hpp:18-140): one variant site.  `ref`
and `alt` are byte strings, modelled as lists of naturals. -/
structure marker where
  position : Nat
  ref : List Nat
  alt : List Nat
  haplotype_count : Nat
  non_zero_haplotypes : List sparse_vector_allele
deriving DecidableEq, Repr

/-- The loop body of the dense marker constructor (cmf_reader.hpp:82-92):
walk the dense sequence with a running offset, storing every status that
is not `has_ref`. -/
def fromDenseAux : List allele_status → Nat → List sparse_vector_allele
  | [], _ => []
  | s :: rest, off =>
    if s ≠ allele_status.has_ref then
      ⟨off, s⟩ :: fromDenseAux rest (off + 1)
    else
      fromDenseAux rest (off + 1)

/-- The dense (iterator-pair) marker constructor (cmf_reader.hpp:75-94):
`haplotype_count_` is the length of the input range and
`non_zero_haplotypes_` collects the non-reference statuses with their
offsets. -/
def marker.ofDense (pos : Nat) (r a : List Nat) (s : List allele_status) : marker :=
  ⟨pos, r, a, s.length, fromDenseAux s 0⟩

/-- Dereference of `marker::const_iterator` (cmf_reader.hpp:59-64): if the
sparse cursor is not exhausted and sits on the current dense index, yield
`is_missing` or `has_alt` according to the stored status; otherwise yield
`has_ref`. -/
def derefAt (es : List sparse_vector_allele) (i : Nat) : allele_status :=
  match es with
  | [] => allele_status.has_ref
  | e :: _ =>
    if i = e.offset then
      (if e.status = allele_status.is_missing then allele_status.is_missing
       else allele_status.has_alt)
    else allele_status.has_ref

/-- `marker::const_iterator::increment` (cmf_reader.hpp:51-56): consume the
sparse cursor when it sits on the current dense index. -/
def advance (es : List sparse_vector_allele) (i : Nat) : List sparse_vector_allele :=
  match es with
  | [] => []
  | e :: rest => if i = e.offset then rest else es

/-- The dense iteration from `begin()` to `end()`: `n` dereference/increment
steps starting at dense index `i` over the sparse cursor `es`.  Iterator
equality compares the dense index alone (cmf_reader.hpp:66-67), so the walk
takes exactly `haplotype_count` steps. -/
def denseIterFrom : List sparse_vector_allele → Nat → Nat → List allele_status
  | _, _, 0 => []
  | es, i, n + 1 => derefAt es i :: denseIterFrom (advance es i) (i + 1) n

/-- Modelled from the spec: `marker::begin()`/`end()` are declared in
cmf_reader.hpp:125-126 but their definitions are not under `src/`; per
spec §3 iteration across a marker yields exactly `haplotype_count` allele
statuses, so `begin()` starts the cursor at dense index 0 and `end()` is
the iterator at dense index `haplotype_count`. -/
def marker.denseList (m : marker) : List allele_status :=
  denseIterFrom m.non_zero_haplotypes 0 m.haplotype_count

theorem fromDenseAux_offset_ge (s : List allele_status) (off : Nat) :
    ∀ e ∈ fromDenseAux s off, off ≤ e.offset := by
  induction s generalizing off with
  | nil => intro e he; simp [fromDenseAux] at he
  | cons h t ih =>
    intro e he
    simp only [fromDenseAux] at he
    by_cases hh : h ≠ allele_status.has_ref
    · simp only [if_pos hh, List.mem_cons] at he
      rcases he with rfl | he
      · exact Nat.le_refl _
      · exact Nat.le_of_succ_le (ih (off + 1) e he)
    · simp only [if_neg hh] at he
      exact Nat.le_of_succ_le (ih (off + 1) e he)

theorem denseIterFrom_fromDenseAux (s : List allele_status) (off : Nat) :
    denseIterFrom (fromDenseAux s off) off s.length = s := by
  induction s generalizing off with
  | nil => rfl
  | cons h t ih =>
    by_cases hh : h = allele_status.has_ref
    · subst hh
      have hne : ∀ e ∈ fromDenseAux t (off + 1), off ≠ e.offset := by
        intro e he hoff
        have := fromDenseAux_offset_ge t (off + 1) e he
        omega
      simp only [List.length_cons, fromDenseAux, ne_eq, not_true_eq_false, if_false,
        denseIterFrom]
      refine List.cons_eq_cons.mpr ⟨?_, ?_⟩
      · cases hfd : fromDenseAux t (off + 1) with
        | nil => rfl
        | cons e rest =>
          have : off ≠ e.offset := by
            apply hne; rw [hfd]; exact List.mem_cons_self e rest
          simp [derefAt, this]
      · have hadv : advance (fromDenseAux t (off + 1)) off = fromDenseAux t (off + 1) := by
          cases hfd : fromDenseAux t (off + 1) with
          | nil => rfl
          | cons e rest =>
            have : off ≠ e.offset := by
              apply hne; rw [hfd]; exact List.mem_cons_self e rest
            simp [advance, this]
        rw [hadv]; exact ih (off + 1)
    · simp only [List.length_cons, fromDenseAux, ne_eq, hh, not_false_iff, if_true,
        denseIterFrom]
      refine List.cons_eq_cons.mpr ⟨?_, ?_⟩
      · cases h with
        | has_ref => exact absurd rfl hh
        | has_alt => simp [derefAt]
        | is_missing => simp [derefAt]
      · simp only [advance, if_pos rfl]
        exact ih (off + 1)

/-- C1: building a marker from a dense allele-status sequence `s` with the
dense (iterator-pair) constructor and iterating it densely from `begin()`
to `end()` yields exactly `s.length` statuses, element-for-element equal
to `s` (the stored status at offsets where `s` is non-reference, `has_ref`
elsewhere), and `haplotype_count()` equals `s.length`. -/
theorem marker_dense_roundtrip_c1 (pos : Nat) (r a : List Nat) (s : List allele_status) :
    (marker.ofDense pos r a s).haplotype_count = s.length ∧
    (marker.ofDense pos r a s).denseList = s ∧
    (marker.ofDense pos r a s).denseList.length = s.length := by
  refine ⟨rfl, ?_, ?_⟩
  · show denseIterFrom (fromDenseAux s 0) 0 s.length = s
    exact denseIterFrom_fromDenseAux s 0
  · show (denseIterFrom (fromDenseAux s 0) 0 s.length).length = s.length
    rw [denseIterFrom_fromDenseAux s 0]

end cmf

end vc

namespace savvy

/-- `savvy::compressed_vector<T>` (compressed_vector.hpp:15-301),
instantiated at `T = ℤ` (so the default value `T()` is `0`): logical
length `size` with parallel `values`/`offsets` storage for the non-default
entries. -/
structure compressed_vector where
  values : List Int
  offsets : List Nat
  size : Nat
deriving DecidableEq, Repr

/-- `std::lower_bound` over `offsets_`, by its standard-specified
postcondition on a partitioned range: the index of the first element not
less than `x` (equivalently, the length of the maximal `< x` prefix).
Every theorem below that relies on this supplies the sortedness the C++
standard requires. -/
def lowerBound (xs : List Nat) (x : Nat) : Nat :=
  (xs.takeWhile (fun y => decide (y < x))).length

/-- `compressed_vector::operator[] const` (compressed_vector.hpp:179-185):
binary-search `offsets_` for `pos`; if absent return the default value,
else the matching entry of `values_`. -/
def compressed_vector.get (v : compressed_vector) (pos : Nat) : Int :=
  let k := lowerBound v.offsets pos
  if k = v.offsets.length ∨ v.offsets.getD k 0 ≠ pos then 0
  else v.values.getD k 0

/-- `std::vector::resize(n, fill)`: truncate to `n` elements or pad with
`fill` up to `n` elements. -/
def vecResize {α : Type} (l : List α) (n : Nat) (fill : α) : List α :=
  if l.length ≤ n then l ++ List.replicate (n - l.length) fill else l.take n

/-- The loop of `compressed_vector::resize` (compressed_vector.hpp:204-205):
overwrite every position with index `≥ start` by its own index.  `i` is the
index of the head of `l` in the whole list. -/
def fillFromAux : List Nat → Nat → Nat → List Nat
  | [], _, _ => []
  | o :: rest, i, start =>
    (if start ≤ i then i else o) :: fillFromAux rest (i + 1) start

/-- `compressed_vector::resize` (compressed_vector.hpp:187-209): clear when
the new size is zero; when shrinking, erase the offsets `≥ sz` found via
`lower_bound` and cut `values_` to the remaining length; when the fill
value is non-default, resize both backing vectors to `sz` total elements
and overwrite the offsets at positions `[size_, sz)` with those positions;
finally set `size_ = sz`. -/
def compressed_vector.resize (v : compressed_vector) (sz : Nat) (val : Int) :
    compressed_vector :=
  if sz = 0 then ⟨[], [], 0⟩
  else if sz < v.size then
    let k := lowerBound v.offsets sz
    ⟨vecResize v.values k 0, v.offsets.take k, sz⟩
  else if val ≠ 0 then
    ⟨vecResize v.values sz val, fillFromAux (vecResize v.offsets sz 0) 0 v.size, sz⟩
  else
    ⟨v.values, v.offsets, sz⟩

/-- `compressed_vector::clear` (compressed_vector.hpp:217-220). -/
def compressed_vector.clear (v : compressed_vector) : compressed_vector :=
  v.resize 0 0

/-- `compressed_vector::operator[]` mutable (compressed_vector.hpp:150-168),
as the post-state of the call: if the offsets are non-empty and the last
one is below `pos`, append a default entry at `pos`; otherwise search with
`lower_bound` and, when `pos` is absent, insert a default entry at the
found position; when present, leave the vector unchanged (the C++ call
returns a reference to the existing slot). -/
def compressed_vector.subscriptMut (v : compressed_vector) (pos : Nat) :
    compressed_vector :=
  if v.offsets ≠ [] ∧ v.offsets.getLastD 0 < pos then
    ⟨v.values ++ [0], v.offsets ++ [pos], v.size⟩
  else
    let k := lowerBound v.offsets pos
    if k = v.offsets.length ∨ v.offsets.getD k 0 ≠ pos then
      ⟨v.values.insertIdx k 0, v.offsets.insertIdx k pos, v.size⟩
    else v

/-- Non-default entries collected by the dense `assign` loop
(compressed_vector.hpp:126-134), with the running index `i`. -/
def assignDenseAux : List Int → Nat → List (Nat × Int)
  | [], _ => []
  | x :: rest, i =>
    if x ≠ 0 then (i, x) :: assignDenseAux rest (i + 1)
    else assignDenseAux rest (i + 1)

/-- `compressed_vector::assign(val_it, val_end)` from a dense range
(compressed_vector.hpp:118-135): the logical size is the range length and
the entries are the non-zero elements with their positions. -/
def compressed_vector.assignDense (s : List Int) : compressed_vector :=
  ⟨(assignDenseAux s 0).map Prod.snd, (assignDenseAux s 0).map Prod.fst, s.length⟩

/-- `compressed_vector::assign(val_it, val_end, off_it, sz)` from sparse
input (compressed_vector.hpp:137-148): copy `val_end - val_it` elements
from each input range and set the logical size to `sz`. -/
def compressed_vector.assignSparse (vals : List Int) (offs : List Nat) (sz : Nat) :
    compressed_vector :=
  ⟨vals, offs.take vals.length, sz⟩

/-- The two-pointer merge loop of `compressed_vector::dot`
(compressed_vector.hpp:269-291), over the zipped (offset, value) lists:
advance the cursor with the smaller offset; on a match accumulate the
product of the two values. -/
def dotMerge : List (Nat × Int) → List (Nat × Int) → Int → Int
  | (i, x) :: as, (j, y) :: bs, acc =>
    if i < j then dotMerge as ((j, y) :: bs) acc
    else if j < i then dotMerge ((i, x) :: as) bs acc
    else dotMerge as bs (acc + x * y)
  | _, _, acc => acc
termination_by as bs _ => as.length + bs.length

/-- `compressed_vector::dot(other)` (compressed_vector.hpp:227-230), which
calls the aggregate overload with a default-initialized accumulator. -/
def compressed_vector.dot (a b : compressed_vector) : Int :=
  dotMerge (a.offsets.zip a.values) (b.offsets.zip b.values) 0

/-- `compressed_vector::operator*` (compressed_vector.hpp:222-225), which
also calls the aggregate `dot` with a default-initialized accumulator. -/
def compressed_vector.mulOp (a b : compressed_vector) : Int :=
  dotMerge (a.offsets.zip a.values) (b.offsets.zip b.values) 0

/-- The documented invariant of `compressed_vector` (spec §4.B): strictly
ascending offsets, every offset below the logical size, and parallel
storage of equal length. -/
def compressed_vector.inv (v : compressed_vector) : Prop :=
  v.offsets.Pairwise (· < ·) ∧ (∀ o ∈ v.offsets, o < v.size) ∧
    v.values.length = v.offsets.length

instance (v : compressed_vector) : Decidable v.inv := by
  unfold compressed_vector.inv
  infer_instance

theorem lowerBound_le (xs : List Nat) (x : Nat) : lowerBound xs x ≤ xs.length := by
  unfold lowerBound
  induction xs with
  | nil => simp
  | cons a t ih =>
    by_cases h : a < x
    · simpa [List.takeWhile_cons, h] using Nat.succ_le_succ ih
    · simp [List.takeWhile_cons, h]

theorem lowerBound_pre (xs : List Nat) (x : Nat) :
    ∀ j, j < lowerBound xs x → xs.getD j 0 < x := by
  unfold lowerBound
  induction xs with
  | nil => simp
  | cons a t ih =>
    intro j hj
    by_cases h : a < x
    · simp only [List.takeWhile_cons, h, decide_True, List.length_cons] at hj
      cases j with
      | zero => simpa using h
      | succ j => exact ih j (Nat.lt_of_succ_lt_succ hj)
    · simp [List.takeWhile_cons, h] at hj

theorem lowerBound_at (xs : List Nat) (x : Nat) (h : lowerBound xs x < xs.length) :
    ¬ xs.getD (lowerBound xs x) 0 < x := by
  unfold lowerBound at *
  induction xs with
  | nil => simp at h
  | cons a t ih =>
    by_cases ha : a < x
    · simp only [List.takeWhile_cons, ha, decide_True, List.length_cons] at h ⊢
      exact ih (Nat.lt_of_succ_lt_succ h)
    · simp [List.takeWhile_cons, ha]

theorem lowerBound_eq_of_mem (xs : List Nat) (x : Nat) (hp : xs.Pairwise (· < ·))
    (k : Nat) (hk : k < xs.length) (hx : xs.getD k 0 = x) : lowerBound xs x = k := by
  unfold lowerBound
  induction xs generalizing k with
  | nil => simp at hk
  | cons a t ih =>
    rcases List.pairwise_cons.mp hp with ⟨ha, ht⟩
    cases k with
    | zero =>
      simp only [List.getD_cons_zero] at hx
      subst hx
      simp [List.takeWhile_cons]
    | succ j =>
      simp only [List.getD_cons_succ] at hx
      have hj : j < t.length := Nat.lt_of_succ_lt_succ hk
      have hmem : t.getD j 0 ∈ t := by
        rw [List.getD_eq_getElem t 0 hj]
        exact List.getElem_mem hj
      have hax : a < x := hx ▸ ha _ hmem
      simp only [List.takeWhile_cons, hax, decide_True, if_true, List.length_cons]
      rw [ih ht j hj hx]

theorem getD_mem_of_lt {xs : List Nat} {j : Nat} (h : j < xs.length) :
    xs.getD j 0 ∈ xs := by
  rw [List.getD_eq_getElem xs 0 h]
  exact List.getElem_mem h

theorem get_stored (v : compressed_vector) (i : Nat)
    (hs : v.offsets.Pairwise (· < ·)) (k : Nat) (hk : k < v.offsets.length)
    (hki : v.offsets.getD k 0 = i) : v.get i = v.values.getD k 0 := by
  have hlb : lowerBound v.offsets i = k := lowerBound_eq_of_mem v.offsets i hs k hk hki
  unfold compressed_vector.get
  simp only [hlb]
  rw [if_neg]
  push_neg
  exact ⟨Nat.ne_of_lt hk, hki⟩

theorem get_absent (v : compressed_vector) (i : Nat) (hni : i ∉ v.offsets) :
    v.get i = 0 := by
  unfold compressed_vector.get
  by_cases hlen : lowerBound v.offsets i = v.offsets.length
  · simp [hlen]
  · have hlt : lowerBound v.offsets i < v.offsets.length :=
      Nat.lt_of_le_of_ne (lowerBound_le v.offsets i) hlen
    have hmem := getD_mem_of_lt hlt
    have hne : v.offsets.getD (lowerBound v.offsets i) 0 ≠ i := by
      intro heq; exact hni (heq ▸ hmem)
    rw [if_pos (Or.inr hne)]

/-- C8: with the invariant in force, the const element access of
`compressed_vector` returns the stored `values[k]` when `offsets[k] = i`
for some `k`, and the default value `0` when no stored offset equals `i`.
The model of `operator[] const` is a pure function of the vector, so the
call cannot change `v`. -/
theorem compressed_vector_get_c8 (v : compressed_vector) (i : Nat)
    (hs : v.offsets.Pairwise (· < ·)) :
    (∀ k, k < v.offsets.length → v.offsets.getD k 0 = i →
      v.get i = v.values.getD k 0) ∧
    (i ∉ v.offsets → v.get i = 0) :=
  ⟨fun k hk hki => get_stored v i hs k hk hki, fun hni => get_absent v i hni⟩

/-- Reference lookup over (offset, value) pairs: the value of the first
pair with the given offset, default `0` when none matches. -/
def lookupPairs (j : Nat) : List (Nat × Int) → Int
  | [] => 0
  | (o, x) :: rest => if o = j then x else lookupPairs j rest

theorem lookupPairs_eq_zero (j : Nat) (ps : List (Nat × Int))
    (h : ∀ p ∈ ps, p.1 ≠ j) : lookupPairs j ps = 0 := by
  induction ps with
  | nil => rfl
  | cons q rest ih =>
    obtain ⟨o, x⟩ := q
    have ho : o ≠ j := h (o, x) (List.mem_cons_self _ _)
    simp only [lookupPairs, if_neg ho]
    exact ih fun p hp => h p (List.mem_cons_of_mem _ hp)

theorem lowerBound_cons_lt {o j : Nat} (os : List Nat) (h : o < j) :
    lowerBound (o :: os) j = lowerBound os j + 1 := by
  simp [lowerBound, List.takeWhile_cons, h]

theorem lowerBound_cons_ge {o j : Nat} (os : List Nat) (h : ¬ o < j) :
    lowerBound (o :: os) j = 0 := by
  simp [lowerBound, List.takeWhile_cons, h]

theorem get_eq_lookupPairs (v : compressed_vector) (j : Nat)
    (hs : v.offsets.Pairwise (· < ·)) :
    v.get j = lookupPairs j (v.offsets.zip v.values) := by
  obtain ⟨vs, os, sz⟩ := v
  simp only at hs ⊢
  induction os generalizing vs with
  | nil =>
    simp [compressed_vector.get, lowerBound, lookupPairs]
  | cons o os' ih =>
    rcases List.pairwise_cons.mp hs with ⟨ho, hos⟩
    cases vs with
    | nil =>
      have hz : lookupPairs j ((o :: os').zip ([] : List Int)) = 0 := rfl
      rw [hz]
      simp only [compressed_vector.get]
      split
      · rfl
      · simp
    | cons x vs' =>
      by_cases hoj : o < j
      · have hlb := lowerBound_cons_lt (j := j) os' hoj
        have honej : o ≠ j := Nat.ne_of_lt hoj
        have := ih vs' hos
        unfold compressed_vector.get at this ⊢
        simp only [hlb, List.zip_cons_cons, lookupPairs, if_neg honej,
          List.length_cons, Nat.add_right_cancel_iff, List.getD_cons_succ] at this ⊢
        exact this
      · have hlb := lowerBound_cons_ge (j := j) os' hoj
        by_cases hoeq : o = j
        · subst hoeq
          unfold compressed_vector.get
          simp only [hlb, List.zip_cons_cons, lookupPairs, if_pos rfl,
            List.length_cons, List.getD_cons_zero]
          rw [if_neg (by push_neg; exact ⟨by omega, rfl⟩)]
          simp
        · have hgt : j < o := by omega
          unfold compressed_vector.get
          simp only [hlb, List.zip_cons_cons, lookupPairs, if_neg hoeq,
            List.length_cons, List.getD_cons_zero]
          rw [if_pos (Or.inr (Ne.symm (Nat.ne_of_lt hgt)))]
          rw [lookupPairs_eq_zero]
          intro p hp
          have hmem := (List.of_mem_zip hp).1
          have := ho p.1 hmem
          omega

theorem insertIdx_lowerBound_eq (os : List Nat) (pos : Nat) :
    os.insertIdx (lowerBound os pos) pos =
      os.takeWhile (fun y => decide (y < pos)) ++
        pos :: os.dropWhile (fun y => decide (y < pos)) := by
  induction os with
  | nil => rfl
  | cons o t ih =>
    by_cases h : o < pos
    · rw [lowerBound_cons_lt t h]
      simp only [List.insertIdx_succ_cons, List.takeWhile_cons, List.dropWhile_cons, h,
        decide_True, if_true]
      exact congrArg (o :: ·) ih
    · rw [lowerBound_cons_ge t h]
      simp [List.insertIdx_zero, List.takeWhile_cons, List.dropWhile_cons, h]

theorem dropWhile_gt (os : List Nat) (pos : Nat) (hs : os.Pairwise (· < ·))
    (hni : pos ∉ os) :
    ∀ y ∈ os.dropWhile (fun y => decide (y < pos)), pos < y := by
  induction os with
  | nil => simp
  | cons o t ih =>
    rcases List.pairwise_cons.mp hs with ⟨ho, ht⟩
    intro y hy
    by_cases h : o < pos
    · simp only [List.dropWhile_cons, h, decide_True, if_true] at hy
      exact ih ht (fun hm => hni (List.mem_cons_of_mem _ hm)) y hy
    · simp only [List.dropWhile_cons, h, decide_False, if_false] at hy
      have hne : o ≠ pos := fun he => hni (he ▸ List.mem_cons_self _ _)
      rcases List.mem_cons.mp hy with rfl | hyt
      · omega
      · have := ho y hyt
        omega

theorem pairwise_insertIdx_lowerBound (os : List Nat) (pos : Nat)
    (hs : os.Pairwise (· < ·)) (hni : pos ∉ os) :
    (os.insertIdx (lowerBound os pos) pos).Pairwise (· < ·) := by
  rw [insertIdx_lowerBound_eq]
  rw [List.pairwise_append]
  refine ⟨hs.sublist (List.takeWhile_sublist _), ?_, ?_⟩
  · rw [List.pairwise_cons]
    exact ⟨dropWhile_gt os pos hs hni, hs.sublist (List.dropWhile_sublist _)⟩
  · intro a ha b hb
    have hap : a < pos := by simpa using List.mem_takeWhile_imp ha
    rcases List.mem_cons.mp hb with rfl | hbd
    · exact hap
    · exact Nat.lt_trans hap (dropWhile_gt os pos hs hni b hbd)

theorem zip_insertIdx (os : List Nat) (vs : List Int) (k : Nat) (pos : Nat) (x : Int)
    (hk : k ≤ os.length) (hlen : vs.length = os.length) :
    (os.insertIdx k pos).zip (vs.insertIdx k x) = (os.zip vs).insertIdx k (pos, x) := by
  induction k generalizing os vs with
  | zero => simp [List.insertIdx_zero]
  | succ k ih =>
    cases os with
    | nil => simp at hk
    | cons o os' =>
      cases vs with
      | nil => simp at hlen
      | cons v vs' =>
        simp only [List.insertIdx_succ_cons, List.zip_cons_cons]
        rw [ih os' vs' (Nat.le_of_succ_le_succ hk) (by simpa using hlen)]

theorem lookupPairs_insertIdx_ne (j k : Nat) (pos : Nat) (x : Int)
    (ps : List (Nat × Int)) (hj : j ≠ pos) :
    lookupPairs j (ps.insertIdx k (pos, x)) = lookupPairs j ps := by
  induction k generalizing ps with
  | zero =>
    simp only [List.insertIdx_zero, lookupPairs, if_neg (Ne.symm hj)]
  | succ k ih =>
    cases ps with
    | nil => rfl
    | cons q ps' =>
      obtain ⟨o, y⟩ := q
      rw [List.insertIdx_succ_cons]
      simp only [lookupPairs]
      by_cases h : o = j
      · simp [h]
      · simp only [if_neg h]
        exact ih ps'

theorem lookupPairs_insertIdx_self (k : Nat) (pos : Nat) (x : Int)
    (ps : List (Nat × Int)) (h : ∀ p ∈ ps, p.1 ≠ pos) (hk : k ≤ ps.length) :
    lookupPairs pos (ps.insertIdx k (pos, x)) = x := by
  induction k generalizing ps with
  | zero => simp [List.insertIdx_zero, lookupPairs]
  | succ k ih =>
    cases ps with
    | nil => simp at hk
    | cons q ps' =>
      obtain ⟨o, y⟩ := q
      have ho : o ≠ pos := h (o, y) (List.mem_cons_self _ _)
      simp only [List.insertIdx_succ_cons, lookupPairs, if_neg ho]
      exact ih ps' (fun p hp => h p (List.mem_cons_of_mem _ hp))
        (by simpa using hk)

theorem le_of_getLast?_sorted (os : List Nat) (b : Nat)
    (hs : os.Pairwise (· < ·)) (hb : os.getLast? = some b) : ∀ x ∈ os, x ≤ b := by
  induction os with
  | nil => simp at hb
  | cons o t ih =>
    rcases List.pairwise_cons.mp hs with ⟨ho, ht⟩
    intro x hx
    cases t with
    | nil =>
      simp only [List.getLast?_singleton, Option.some.injEq] at hb
      simp only [List.mem_singleton] at hx
      omega
    | cons c t' =>
      have hb' : (c :: t').getLast? = some b := by
        rw [← hb]; rfl
      rcases List.mem_cons.mp hx with rfl | hxt
      · have hbm : b ∈ c :: t' := List.mem_of_getLast?_eq_some hb'
        exact Nat.le_of_lt (ho b hbm)
      · exact ih ht hb' x hxt

/-- The core dichotomy of the mutable `operator[]`: either the offset is
already stored and the call leaves the vector unchanged, or it is absent
and a default entry is inserted at the `lower_bound` position (the
fast append path coincides with insertion at the end). -/
theorem subscriptMut_cases (v : compressed_vector) (pos : Nat)
    (hs : v.offsets.Pairwise (· < ·)) (hl : v.values.length = v.offsets.length) :
    (pos ∈ v.offsets ∧ v.subscriptMut pos = v) ∨
    (pos ∉ v.offsets ∧ v.subscriptMut pos =
      ⟨v.values.insertIdx (lowerBound v.offsets pos) 0,
       v.offsets.insertIdx (lowerBound v.offsets pos) pos, v.size⟩) := by
  unfold compressed_vector.subscriptMut
  by_cases hc : v.offsets ≠ [] ∧ v.offsets.getLastD 0 < pos
  · obtain ⟨hne, hblt⟩ := hc
    have hlast : v.offsets.getLast? = some (v.offsets.getLastD 0) := by
      cases hval : v.offsets.getLast? with
      | none => exact absurd (List.getLast?_eq_none_iff.mp hval) hne
      | some b => simp [List.getLastD_eq_getLast?, hval]
    have hnotin : pos ∉ v.offsets := by
      intro hmem
      have := le_of_getLast?_sorted v.offsets _ hs hlast pos hmem
      omega
    have hall : ∀ y ∈ v.offsets, y < pos := by
      intro y hy
      have := le_of_getLast?_sorted v.offsets _ hs hlast y hy
      omega
    have hk : lowerBound v.offsets pos = v.offsets.length := by
      unfold lowerBound
      rw [List.takeWhile_eq_self_iff.mpr (by intro x hx; simpa using hall x hx)]
    right
    refine ⟨hnotin, ?_⟩
    rw [if_pos ⟨hne, hblt⟩]
    rw [hk, List.insertIdx_length_self, ← hl, List.insertIdx_length_self]
  · rw [if_neg hc]
    by_cases hmem : pos ∈ v.offsets
    · left
      refine ⟨hmem, ?_⟩
      obtain ⟨k0, hk0, hk0e⟩ := List.getElem_of_mem hmem
      have hgd : v.offsets.getD k0 0 = pos := by
        rw [List.getD_eq_getElem v.offsets 0 hk0]; exact hk0e
      have hlb : lowerBound v.offsets pos = k0 :=
        lowerBound_eq_of_mem v.offsets pos hs k0 hk0 hgd
      rw [if_neg]
      push_neg
      exact ⟨by omega, by rw [hlb]; exact hgd⟩
    · right
      refine ⟨hmem, ?_⟩
      rw [if_pos]
      by_cases hlen : lowerBound v.offsets pos = v.offsets.length
      · exact Or.inl hlen
      · refine Or.inr ?_
        have hlt : lowerBound v.offsets pos < v.offsets.length :=
          Nat.lt_of_le_of_ne (lowerBound_le v.offsets pos) hlen
        intro heq
        exact hmem (heq ▸ getD_mem_of_lt hlt)

/-- C10: the mutable element access of `compressed_vector` is total in the
index: if an entry at offset `pos` exists the vector is unchanged (the C++
call returns a reference to the existing slot); otherwise a
default-valued entry is inserted at the `lower_bound` position (which is
the end of the list when `pos` exceeds the last stored offset), the entry
at `pos` then reads `0`, all entries at other offsets and the logical size
are unchanged, and `pos` is stored even when `pos ≥ size`. -/
theorem compressed_vector_subscript_c10 (v : compressed_vector) (pos : Nat)
    (hs : v.offsets.Pairwise (· < ·)) (hl : v.values.length = v.offsets.length) :
    (v.subscriptMut pos).size = v.size ∧
    (pos ∈ v.offsets → v.subscriptMut pos = v) ∧
    (pos ∉ v.offsets →
      (v.subscriptMut pos).offsets = v.offsets.insertIdx (lowerBound v.offsets pos) pos ∧
      (v.subscriptMut pos).values = v.values.insertIdx (lowerBound v.offsets pos) 0) ∧
    pos ∈ (v.subscriptMut pos).offsets ∧
    (v.subscriptMut pos).offsets.Pairwise (· < ·) ∧
    (∀ j, j ≠ pos → (v.subscriptMut pos).get j = v.get j) ∧
    (pos ∉ v.offsets → (v.subscriptMut pos).get pos = 0) := by
  have hk := lowerBound_le v.offsets pos
  rcases subscriptMut_cases v pos hs hl with ⟨hmem, heq⟩ | ⟨hmem, heq⟩
  · rw [heq]
    exact ⟨rfl, fun _ => rfl, fun hn => absurd hmem hn, hmem, hs,
      fun j _ => rfl, fun hn => absurd hmem hn⟩
  · rw [heq]
    have hsorted : (v.offsets.insertIdx (lowerBound v.offsets pos) pos).Pairwise (· < ·) :=
      pairwise_insertIdx_lowerBound v.offsets pos hs hmem
    have hzip : (v.offsets.insertIdx (lowerBound v.offsets pos) pos).zip
        (v.values.insertIdx (lowerBound v.offsets pos) 0) =
        (v.offsets.zip v.values).insertIdx (lowerBound v.offsets pos) (pos, 0) :=
      zip_insertIdx v.offsets v.values (lowerBound v.offsets pos) pos 0 hk hl
    have hfst : ∀ p ∈ v.offsets.zip v.values, p.1 ≠ pos := by
      intro p hp hpe
      exact hmem (hpe ▸ (List.of_mem_zip hp).1)
    refine ⟨rfl, fun hn => absurd hn hmem, fun _ => ⟨rfl, rfl⟩, ?_, hsorted, ?_, ?_⟩
    · exact (List.mem_insertIdx hk).mpr (Or.inl rfl)
    · intro j hj
      rw [show (⟨v.values.insertIdx (lowerBound v.offsets pos) 0,
          v.offsets.insertIdx (lowerBound v.offsets pos) pos, v.size⟩ :
          compressed_vector).get j =
          lookupPairs j ((v.offsets.insertIdx (lowerBound v.offsets pos) pos).zip
            (v.values.insertIdx (lowerBound v.offsets pos) 0)) from
        get_eq_lookupPairs _ j hsorted]
      rw [hzip, lookupPairs_insertIdx_ne j _ pos 0 _ hj]
      rw [get_eq_lookupPairs v j hs]
    · intro _
      rw [show (⟨v.values.insertIdx (lowerBound v.offsets pos) 0,
          v.offsets.insertIdx (lowerBound v.offsets pos) pos, v.size⟩ :
          compressed_vector).get pos =
          lookupPairs pos ((v.offsets.insertIdx (lowerBound v.offsets pos) pos).zip
            (v.values.insertIdx (lowerBound v.offsets pos) 0)) from
        get_eq_lookupPairs _ pos hsorted]
      rw [hzip]
      exact lookupPairs_insertIdx_self _ pos 0 _ hfst
        (by rw [List.length_zip, ← hl, Nat.min_self]; omega)

/-- C2 (failing input): starting from the sparse vector of logical size 1
with no stored entries — which satisfies the invariant — the call
`resize(2, 1)` is required by the claim to append exactly the entry
`(1, 1)` and keep the (empty) entry list otherwise unchanged, so offset 0
must still read as the default `0`.  The code instead resizes the backing
vectors to the full new size, leaving a spurious stored entry `(0, 1)`:
the result is `values = [1, 1]`, `offsets = [0, 1]`, and reading offset 0
yields `1`. -/
theorem resize_grow_fill_bug_c2 :
    compressed_vector.resize ⟨[], [], 1⟩ 2 1 =
      (⟨[1, 1], [0, 1], 2⟩ : compressed_vector) ∧
    (compressed_vector.resize ⟨[], [], 1⟩ 2 1).get 0 = 1 ∧
    (⟨[], [], 1⟩ : compressed_vector).get 0 = 0 ∧
    (⟨[], [], 1⟩ : compressed_vector).inv := by
  refine ⟨by decide, by decide, by decide, ?_⟩
  refine ⟨List.Pairwise.nil, by simp, rfl⟩

/-- C3 (counterexample): the empty vector of logical size 0 satisfies the
invariant, but the mutable `operator[]` at index 0 — which the code never
checks against the logical size — stores the entry `(0, 0)`, violating
`max(offsets) < size`. -/
theorem inv_not_preserved_c3 :
    (⟨[], [], 0⟩ : compressed_vector).inv ∧
    ¬ ((⟨[], [], 0⟩ : compressed_vector).subscriptMut 0).inv := by
  constructor
  · exact ⟨List.Pairwise.nil, by simp, rfl⟩
  · intro h
    exact absurd (h.2.1 0 (by decide)) (by decide)

theorem assignDenseAux_bounds (s : List Int) (i : Nat) :
    ∀ p ∈ assignDenseAux s i, i ≤ p.1 ∧ p.1 < i + s.length := by
  induction s generalizing i with
  | nil => simp [assignDenseAux]
  | cons x rest ih =>
    intro p hp
    simp only [assignDenseAux] at hp
    by_cases hx : x ≠ 0
    · simp only [if_pos hx, List.mem_cons] at hp
      rcases hp with rfl | hp
      · simp
      · have := ih (i + 1) p hp
        simp only [List.length_cons]
        omega
    · simp only [if_neg hx] at hp
      have := ih (i + 1) p hp
      simp only [List.length_cons]
      omega

theorem assignDenseAux_fst_pairwise (s : List Int) (i : Nat) :
    ((assignDenseAux s i).map Prod.fst).Pairwise (· < ·) := by
  induction s generalizing i with
  | nil => simp [assignDenseAux]
  | cons x rest ih =>
    simp only [assignDenseAux]
    by_cases hx : x ≠ 0
    · simp only [if_pos hx, List.map_cons]
      rw [List.pairwise_cons]
      refine ⟨?_, ih (i + 1)⟩
      intro o ho
      obtain ⟨p, hp, hpe⟩ := List.mem_map.mp ho
      have := (assignDenseAux_bounds rest (i + 1) p hp).1
      omega
    · simp only [if_neg hx]
      exact ih (i + 1)

theorem length_vecResize {α : Type} (l : List α) (n : Nat) (f : α) :
    (vecResize l n f).length = n := by
  unfold vecResize
  by_cases h : l.length ≤ n
  · simp only [if_pos h, List.length_append, List.length_replicate]
    omega
  · simp only [if_neg h, List.length_take]
    omega

theorem take_takeWhile_length {α : Type} (l : List α) (p : α → Bool) :
    l.take ((l.takeWhile p).length) = l.takeWhile p := by
  induction l with
  | nil => rfl
  | cons a t ih =>
    by_cases h : p a
    · simp [List.takeWhile_cons, h, ih]
    · simp [List.takeWhile_cons, h]

theorem fillFromAux_keep (l : List Nat) (i start : Nat) (h : i + l.length ≤ start) :
    fillFromAux l i start = l := by
  induction l generalizing i with
  | nil => rfl
  | cons o t ih =>
    simp only [List.length_cons] at h
    simp only [fillFromAux, if_neg (by omega : ¬ start ≤ i)]
    rw [ih (i + 1) (by omega)]

theorem fillFromAux_fill (l : List Nat) (i start : Nat) (h : start ≤ i) :
    fillFromAux l i start = List.range' i l.length := by
  induction l generalizing i with
  | nil => rfl
  | cons o t ih =>
    simp only [fillFromAux, if_pos h, List.length_cons, List.range'_succ]
    rw [ih (i + 1) (by omega)]

theorem fillFromAux_append (l1 l2 : List Nat) (i start : Nat) :
    fillFromAux (l1 ++ l2) i start =
      fillFromAux l1 i start ++ fillFromAux l2 (i + l1.length) start := by
  induction l1 generalizing i with
  | nil => simp [fillFromAux]
  | cons o t ih =>
    simp only [List.cons_append, fillFromAux, List.length_cons]
    rw [show fillFromAux (t.append l2) (i + 1) start
        = fillFromAux t (i + 1) start ++ fillFromAux l2 (i + 1 + t.length) start
      from ih (i + 1)]
    have harith : i + 1 + t.length = i + (t.length + 1) := by omega
    rw [harith]

theorem pairwise_range' (s n : Nat) : (List.range' s n).Pairwise (· < ·) := by
  induction n generalizing s with
  | zero => exact List.Pairwise.nil
  | succ n ih =>
    rw [List.range'_succ, List.pairwise_cons]
    refine ⟨?_, ih (s + 1)⟩
    intro y hy
    obtain ⟨i, _, rfl⟩ := List.mem_range'.mp hy
    omega

/-- C3 (amended): every mutating operation of `compressed_vector`
preserves the invariant under the conditions the code actually needs:
assignment from dense input unconditionally; assignment from valid sparse
input; `clear`; `resize` when shrinking, or when growing with the default
fill, or when growing with a non-default fill from a fully dense vector;
and the mutable `operator[]` when the index is below the logical size.
(Growing to `n ≥ size` with a non-default fill from a vector that is not
fully dense breaks the invariant, as does `operator[]` at an index `≥
size` — see the counterexample.) -/
theorem compressed_vector_inv_preserved_c3 (v : compressed_vector) (hv : v.inv)
    (s : List Int) (vals : List Int) (offs : List Nat) (ssz : Nat)
    (hvo : offs.Pairwise (· < ·)) (hvs : ∀ o ∈ offs, o < ssz)
    (hvl : vals.length = offs.length)
    (sz : Nat) (val : Int) (pos : Nat) (hpos : pos < v.size)
    (hres : sz = 0 ∨ sz < v.size ∨ val = 0 ∨ v.values.length = v.size) :
    (compressed_vector.assignDense s).inv ∧
    (compressed_vector.assignSparse vals offs ssz).inv ∧
    v.clear.inv ∧
    (v.resize sz val).inv ∧
    (v.subscriptMut pos).inv := by
  obtain ⟨hsort, hlt, hlen⟩ := hv
  refine ⟨?_, ?_, ?_, ?_, ?_⟩
  · refine ⟨assignDenseAux_fst_pairwise s 0, ?_, by
      simp [compressed_vector.assignDense]⟩
    intro o ho
    show o < s.length
    obtain ⟨p, hp, hpe⟩ := List.mem_map.mp ho
    have hb := (assignDenseAux_bounds s 0 p hp).2
    omega
  · unfold compressed_vector.assignSparse
    rw [hvl, List.take_length]
    exact ⟨hvo, hvs, hvl⟩
  · exact ⟨List.Pairwise.nil, by simp [compressed_vector.clear, compressed_vector.resize], rfl⟩
  · unfold compressed_vector.resize
    by_cases h0 : sz = 0
    · rw [if_pos h0]
      exact ⟨List.Pairwise.nil, by simp, rfl⟩
    · rw [if_neg h0]
      by_cases hshrink : sz < v.size
      · rw [if_pos hshrink]
        have hkle : lowerBound v.offsets sz ≤ v.offsets.length := lowerBound_le _ _
        refine ⟨?_, ?_, ?_⟩
        · show (v.offsets.take (lowerBound v.offsets sz)).Pairwise (· < ·)
          exact hsort.sublist (List.take_sublist _ _)
        · intro o ho
          show o < sz
          have ho' : o ∈ v.offsets.takeWhile (fun y => decide (y < sz)) := by
            have ht : v.offsets.take
                ((v.offsets.takeWhile (fun y => decide (y < sz))).length)
                = v.offsets.takeWhile (fun y => decide (y < sz)) :=
              take_takeWhile_length v.offsets _
            rw [← ht]
            exact ho
          simpa using List.mem_takeWhile_imp ho'
        · show (vecResize v.values (lowerBound v.offsets sz) 0).length =
            (v.offsets.take (lowerBound v.offsets sz)).length
          rw [length_vecResize, List.length_take]
          omega
      · rw [if_neg hshrink]
        have hszge : v.size ≤ sz := by omega
        by_cases hval : val = 0
        · rw [if_neg (not_not_intro hval)]
          refine ⟨hsort, ?_, hlen⟩
          intro o ho
          have := hlt o ho
          show o < sz
          omega
        · rw [if_pos hval]
          have hdense : v.values.length = v.size := by
            rcases hres with h | h | h | h
            · exact absurd h h0
            · exact absurd h hshrink
            · exact absurd h hval
            · exact h
          have holen : v.offsets.length = v.size := by omega
          have hvr : vecResize v.offsets sz 0 =
              v.offsets ++ List.replicate (sz - v.offsets.length) 0 := by
            unfold vecResize
            rw [if_pos (by omega)]
          have hfill : fillFromAux (vecResize v.offsets sz 0) 0 v.size =
              v.offsets ++ List.range' v.size (sz - v.size) := by
            rw [hvr, fillFromAux_append, fillFromAux_keep _ 0 v.size (by omega),
              fillFromAux_fill _ _ _ (by omega), List.length_replicate, holen,
              Nat.zero_add]
          rw [hfill]
          refine ⟨?_, ?_, ?_⟩
          · rw [List.pairwise_append]
            refine ⟨hsort, pairwise_range' _ _, ?_⟩
            intro a ha b hb
            obtain ⟨i, _, rfl⟩ := List.mem_range'.mp hb
            have := hlt a ha
            omega
          · intro o ho
            rcases List.mem_append.mp ho with h | h
            · have := hlt o h; show o < sz; omega
            · obtain ⟨i, hi, rfl⟩ := List.mem_range'.mp h
              show v.size + 1 * i < sz
              omega
          · rw [length_vecResize, List.length_append, List.length_range']
            omega
  · rcases subscriptMut_cases v pos hsort hlen with ⟨_, heq⟩ | ⟨hmem, heq⟩
    · rw [heq]; exact ⟨hsort, hlt, hlen⟩
    · rw [heq]
      have hk : lowerBound v.offsets pos ≤ v.offsets.length := lowerBound_le _ _
      refine ⟨pairwise_insertIdx_lowerBound v.offsets pos hsort hmem, ?_, ?_⟩
      · intro o ho
        rcases (List.mem_insertIdx hk).mp ho with rfl | ho
        · exact hpos
        · exact hlt o ho
      · show (v.values.insertIdx (lowerBound v.offsets pos) 0).length =
          (v.offsets.insertIdx (lowerBound v.offsets pos) pos).length
        rw [List.length_insertIdx _ _ (by omega), List.length_insertIdx _ _ hk, hlen]

/-- Reference value of a sparse-sparse inner product: for each pair of
`as`, add its value times the value stored in `bs` at the same offset
whenever `bs` stores that offset. -/
def commonSum : List (Nat × Int) → List (Nat × Int) → Int
  | [], _ => 0
  | p :: rest, bs =>
    (if bs.any (fun q => decide (q.1 = p.1)) then p.2 * lookupPairs p.1 bs else 0)
    + commonSum rest bs

theorem commonSum_nil_right (as : List (Nat × Int)) : commonSum as [] = 0 := by
  induction as with
  | nil => rfl
  | cons p rest ih => simp [commonSum, ih]

theorem commonSum_skip_right (as : List (Nat × Int)) (j : Nat) (y : Int)
    (bs : List (Nat × Int)) (h : ∀ p ∈ as, p.1 ≠ j) :
    commonSum as ((j, y) :: bs) = commonSum as bs := by
  induction as with
  | nil => rfl
  | cons a as' ih =>
    have hij : a.1 ≠ j := h a (List.mem_cons_self _ _)
    have ih' := ih (fun p hp => h p (List.mem_cons_of_mem _ hp))
    have hd : (decide (j = a.1)) = false := by
      simp [Ne.symm hij]
    simp only [commonSum, List.any_cons, ih', hd, Bool.false_or]
    have hl : lookupPairs a.1 ((j, y) :: bs) = lookupPairs a.1 bs := by
      simp only [lookupPairs, if_neg (Ne.symm hij)]
    rw [hl]

theorem dotMerge_eq_commonSum : ∀ (as bs : List (Nat × Int)) (acc : Int),
    as.Pairwise (fun p q => p.1 < q.1) → bs.Pairwise (fun p q => p.1 < q.1) →
    dotMerge as bs acc = acc + commonSum as bs := by
  intro as
  induction as with
  | nil =>
    intro bs acc _ _
    cases bs <;> simp [dotMerge, commonSum]
  | cons a as' ihA =>
    intro bs
    induction bs with
    | nil =>
      intro acc _ _
      obtain ⟨i, x⟩ := a
      rw [commonSum_nil_right]
      simp [dotMerge]
    | cons b bs' ihB =>
      intro acc hA hB
      obtain ⟨i, x⟩ := a
      obtain ⟨j, y⟩ := b
      rcases List.pairwise_cons.mp hA with ⟨hA1, hA2⟩
      rcases List.pairwise_cons.mp hB with ⟨hB1, hB2⟩
      rcases Nat.lt_trichotomy i j with hij | hij | hij
      · have heq : dotMerge ((i, x) :: as') ((j, y) :: bs') acc =
            dotMerge as' ((j, y) :: bs') acc := by
          simp only [dotMerge, if_pos hij]
        rw [heq, ihA ((j, y) :: bs') acc hA2 hB]
        have hhead : ((j, y) :: bs').any (fun q => decide (q.1 = i)) = false := by
          rw [List.any_eq_false]
          intro q hq
          rcases List.mem_cons.mp hq with rfl | hq
          · simp; omega
          · have := hB1 q hq
            simp; omega
        simp only [commonSum, hhead, if_false, Bool.false_eq_true]
        omega
      · subst hij
        have heq : dotMerge ((i, x) :: as') ((i, y) :: bs') acc =
            dotMerge as' bs' (acc + x * y) := by
          simp only [dotMerge, if_neg (Nat.lt_irrefl i)]
        rw [heq, ihA bs' (acc + x * y) hA2 hB2]
        have hskip : commonSum as' ((i, y) :: bs') = commonSum as' bs' := by
          apply commonSum_skip_right
          intro p hp
          have := hA1 p hp
          omega
        simp only [commonSum, List.any_cons, decide_True, Bool.true_or, if_true,
          lookupPairs, if_pos rfl, hskip]
        rw [Int.add_assoc]
      · have heq : dotMerge ((i, x) :: as') ((j, y) :: bs') acc =
            dotMerge ((i, x) :: as') bs' acc := by
          simp only [dotMerge, if_neg (by omega : ¬ i < j), if_pos hij]
        rw [heq, ihB acc hA hB2]
        have hskip : commonSum ((i, x) :: as') ((j, y) :: bs') =
            commonSum ((i, x) :: as') bs' := by
          apply commonSum_skip_right
          intro p hp
          rcases List.mem_cons.mp hp with rfl | hp
          · omega
          · have := hA1 p hp
            omega
        rw [hskip]

theorem lookupPairs_of_mem (az : List (Nat × Int)) (i : Nat) (x : Int)
    (hs : az.Pairwise (fun p q => p.1 < q.1)) (hm : (i, x) ∈ az) :
    lookupPairs i az = x := by
  induction az with
  | nil => simp at hm
  | cons a rest ih =>
    rcases List.pairwise_cons.mp hs with ⟨ha, hrest⟩
    rcases List.mem_cons.mp hm with heq | hm'
    · rw [← heq]
      simp [lookupPairs]
    · obtain ⟨o, v⟩ := a
      have hne : o ≠ i := by
        have := ha (i, x) hm'
        simp only at this
        omega
      simp only [lookupPairs, if_neg hne]
      exact ih hrest hm'

theorem any_fst_eq_mem (bz : List (Nat × Int)) (i : Nat) :
    bz.any (fun q => decide (q.1 = i)) = decide (i ∈ bz.map Prod.fst) := by
  induction bz with
  | nil => simp
  | cons q rest ih =>
    simp only [List.any_cons, List.map_cons, List.mem_cons, ih]
    by_cases h : q.1 = i
    · simp [h]
    · simp [h, Ne.symm h]

theorem commonSum_eq_filter_map_sum (as bs : List (Nat × Int)) :
    commonSum as bs =
      ((as.filter (fun p => bs.any (fun q => decide (q.1 = p.1)))).map
        (fun p => p.2 * lookupPairs p.1 bs)).sum := by
  induction as with
  | nil => rfl
  | cons a as' ih =>
    simp only [commonSum, List.filter_cons]
    by_cases h : bs.any (fun q => decide (q.1 = a.1)) = true
    · simp [h, ih]
    · simp only [Bool.not_eq_true] at h
      simp [h, ih]

theorem sum_range_eq_support (n : Nat) (os : List Nat) (f : Nat → Int)
    (hs : os.Pairwise (· < ·)) (hlt : ∀ o ∈ os, o < n)
    (hz : ∀ i, i < n → i ∉ os → f i = 0) :
    ((List.range n).map f).sum = (os.map f).sum := by
  induction n generalizing os with
  | zero =>
    have : os = [] := by
      cases os with
      | nil => rfl
      | cons o t => exact absurd (hlt o (List.mem_cons_self _ _)) (by omega)
    simp [this]
  | succ n ih =>
    rw [List.range_succ, List.map_append, List.sum_append]
    by_cases hn : n ∈ os
    · have hne : os ≠ [] := by
        intro h; rw [h] at hn; simp at hn
      have hlast : os.getLast hne = n := by
        have hle : ∀ x ∈ os, x ≤ os.getLast hne :=
          le_of_getLast?_sorted os _ hs (List.getLast?_eq_getLast os hne)
        have h1 : n ≤ os.getLast hne := hle n hn
        have h2 : os.getLast hne < n + 1 := hlt _ (List.getLast_mem hne)
        omega
      have hdec : os.dropLast ++ [n] = os := by
        rw [← hlast]
        exact List.dropLast_append_getLast hne
      have hsplit := hs
      rw [← hdec, List.pairwise_append] at hsplit
      rcases hsplit with ⟨hs', _, hcross⟩
      have hlt' : ∀ o ∈ os.dropLast, o < n := by
        intro o ho
        exact hcross o ho n (List.mem_singleton.mpr rfl)
      have hz' : ∀ i, i < n → i ∉ os.dropLast → f i = 0 := by
        intro i hi hni
        apply hz i (by omega)
        intro hmem
        rw [← hdec] at hmem
        rcases List.mem_append.mp hmem with h | h
        · exact hni h
        · simp only [List.mem_singleton] at h
          omega
      rw [ih os.dropLast hs' hlt' hz']
      conv_rhs => rw [← hdec]
      rw [List.map_append, List.sum_append]
    · have hlt' : ∀ o ∈ os, o < n := by
        intro o ho
        have h1 := hlt o ho
        have h2 : o ≠ n := fun he => hn (he ▸ ho)
        omega
      have hz' : ∀ i, i < n → i ∉ os → f i = 0 := fun i hi => hz i (by omega)
      rw [ih os hs hlt' hz']
      have hfn : f n = 0 := hz n (by omega) hn
      simp [hfn]

/-- C7: under the invariant, `dot` (and `operator*`, which calls the same
aggregate loop with a zero accumulator) returns the sum over every offset
stored in both vectors of the product of the two stored values, taken in
ascending offset order (the filtered offset list is ascending); when the
two logical sizes agree this equals the dense inner product read through
the const element access. -/
theorem compressed_vector_dot_c7 (a b : compressed_vector)
    (ha : a.inv) (hb : b.inv) :
    a.mulOp b = a.dot b ∧
    a.dot b = ((a.offsets.filter (fun i => decide (i ∈ b.offsets))).map
      (fun i => a.get i * b.get i)).sum ∧
    (a.size = b.size →
      a.dot b = ((List.range a.size).map (fun i => a.get i * b.get i)).sum) := by
  obtain ⟨hsa, hla, hleqa⟩ := ha
  obtain ⟨hsb, hlb, hleqb⟩ := hb
  have hza : (a.offsets.zip a.values).Pairwise (fun p q => p.1 < q.1) := by
    have hm : (a.offsets.zip a.values).map Prod.fst = a.offsets :=
      List.map_fst_zip _ _ (by omega)
    rw [← hm] at hsa
    exact List.pairwise_map.mp hsa
  have hzb : (b.offsets.zip b.values).Pairwise (fun p q => p.1 < q.1) := by
    have hm : (b.offsets.zip b.values).map Prod.fst = b.offsets :=
      List.map_fst_zip _ _ (by omega)
    rw [← hm] at hsb
    exact List.pairwise_map.mp hsb
  have hmb : (b.offsets.zip b.values).map Prod.fst = b.offsets :=
    List.map_fst_zip _ _ (by omega)
  have hma : (a.offsets.zip a.values).map Prod.fst = a.offsets :=
    List.map_fst_zip _ _ (by omega)
  have hdot : a.dot b = commonSum (a.offsets.zip a.values) (b.offsets.zip b.values) := by
    unfold compressed_vector.dot
    rw [dotMerge_eq_commonSum _ _ 0 hza hzb, Int.zero_add]
  have hmain : a.dot b = ((a.offsets.filter (fun i => decide (i ∈ b.offsets))).map
      (fun i => a.get i * b.get i)).sum := by
    rw [hdot, commonSum_eq_filter_map_sum]
    have hpred : (a.offsets.zip a.values).filter
        (fun p => (b.offsets.zip b.values).any (fun q => decide (q.1 = p.1))) =
        (a.offsets.zip a.values).filter (fun p => decide (p.1 ∈ b.offsets)) := by
      apply List.filter_congr
      intro p _
      rw [any_fst_eq_mem, hmb]
    rw [hpred]
    have hval : ∀ p ∈ (a.offsets.zip a.values).filter
        (fun p => decide (p.1 ∈ b.offsets)),
        p.2 * lookupPairs p.1 (b.offsets.zip b.values) = a.get p.1 * b.get p.1 := by
      intro p hp
      have hpz : p ∈ a.offsets.zip a.values := (List.mem_filter.mp hp).1
      have h1 : a.get p.1 = p.2 := by
        rw [get_eq_lookupPairs a p.1 hsa]
        exact lookupPairs_of_mem _ p.1 p.2 hza hpz
      have h2 : b.get p.1 = lookupPairs p.1 (b.offsets.zip b.values) :=
        get_eq_lookupPairs b p.1 hsb
      rw [h1, h2]
    rw [List.map_congr_left hval]
    have hcomm : ((a.offsets.zip a.values).filter
        (fun p => decide (p.1 ∈ b.offsets))).map (fun p => a.get p.1 * b.get p.1) =
        (((a.offsets.zip a.values).map Prod.fst).filter
          (fun i => decide (i ∈ b.offsets))).map (fun i => a.get i * b.get i) := by
      rw [List.filter_map, List.map_map]
      rfl
    rw [hcomm, hma]
  refine ⟨rfl, hmain, ?_⟩
  intro hsz
  rw [hmain]
  symm
  apply sum_range_eq_support
  · exact hsa.sublist (List.filter_sublist _)
  · intro o ho
    exact hla o (List.mem_filter.mp ho).1
  · intro i _ hni
    by_cases hia : i ∈ a.offsets
    · have hib : i ∉ b.offsets := by
        intro hib
        exact hni (List.mem_filter.mpr ⟨hia, by simpa using hib⟩)
      rw [get_absent b i hib, Int.mul_zero]
    · rw [get_absent a i hia, Int.zero_mul]

/-- Witness for C8 at a concrete vector: offset 3 is stored with value 6,
offset 2 is absent and reads 0. -/
theorem compressed_vector_get_c8_witness :
    (⟨[5, 6], [1, 3], 4⟩ : compressed_vector).get 3 = 6 ∧
    (⟨[5, 6], [1, 3], 4⟩ : compressed_vector).get 2 = 0 := by
  have h3 := compressed_vector_get_c8 ⟨[5, 6], [1, 3], 4⟩ 3 (by decide)
  have h2 := compressed_vector_get_c8 ⟨[5, 6], [1, 3], 4⟩ 2 (by decide)
  exact ⟨h3.1 1 (by decide) (by decide), h2.2 (by decide)⟩

/-- Witness for C10 at a concrete vector and an index beyond the logical
size: the access succeeds, the size is unchanged, and offset 9 ≥ size is
now stored. -/
theorem compressed_vector_subscript_c10_witness :
    (⟨[5, 6], [1, 3], 4⟩ : compressed_vector).offsets.Pairwise (· < ·) ∧
    ((⟨[5, 6], [1, 3], 4⟩ : compressed_vector).subscriptMut 9).size = 4 ∧
    9 ∈ ((⟨[5, 6], [1, 3], 4⟩ : compressed_vector).subscriptMut 9).offsets := by
  have h := compressed_vector_subscript_c10 ⟨[5, 6], [1, 3], 4⟩ 9 (by decide) (by decide)
  exact ⟨by decide, h.1, h.2.2.2.1⟩

/-- Witness for the amended C3 at concrete inputs: the listed mutations
preserve the invariant. -/
theorem compressed_vector_inv_preserved_c3_witness :
    (⟨[5], [1], 3⟩ : compressed_vector).inv ∧
    (compressed_vector.assignDense [0, 2]).inv ∧
    ((⟨[5], [1], 3⟩ : compressed_vector).resize 2 0).inv ∧
    ((⟨[5], [1], 3⟩ : compressed_vector).subscriptMut 0).inv := by
  have h := compressed_vector_inv_preserved_c3 ⟨[5], [1], 3⟩ (by decide) [0, 2] [7] [0] 2
    (by decide) (by decide) (by decide) 2 0 0 (by decide)
    (Or.inr (Or.inr (Or.inl rfl)))
  exact ⟨by decide, h.1, h.2.2.2.1, h.2.2.2.2⟩

/-- Witness for C7 at two concrete vectors of equal logical size 4: the
merge finds the single common offset 2 and the product equals the dense
inner product. -/
theorem compressed_vector_dot_c7_witness :
    (⟨[2, 3], [0, 2], 4⟩ : compressed_vector).inv ∧
    (⟨[2, 3], [0, 2], 4⟩ : compressed_vector).dot ⟨[5, 7], [2, 3], 4⟩ =
      ((List.range 4).map (fun i =>
        (⟨[2, 3], [0, 2], 4⟩ : compressed_vector).get i *
        (⟨[5, 7], [2, 3], 4⟩ : compressed_vector).get i)).sum := by
  refine ⟨by decide, ?_⟩
  exact (compressed_vector_dot_c7 ⟨[2, 3], [0, 2], 4⟩ ⟨[5, 7], [2, 3], 4⟩
    (by decide) (by decide)).2.2 rfl

end savvy

namespace vc

namespace cmf

/-- Modelled from the spec: the continuation bytes of a varint
(`varint.hpp` is not under `src/`; spec §4.A: subsequent bytes carry 7
value bits each, LSB-first, continuation bit in the MSB, terminating when
the remaining value is zero). -/
def varintCont (v : Nat) : List Nat :=
  if h : v < 128 then [v] else (128 + v % 128) :: varintCont (v / 128)
termination_by v
decreasing_by exact Nat.div_lt_self (by omega) (by omega)

/-- Modelled from the spec: the bit-tagged varint encoder family of
`varint.hpp` (absent from `src/`), parameterized by the tag width
`P ∈ {0..7}` (spec §4.A): the first byte holds the continuation bit, the
`P` tag bits, and the low `7 - P` value bits; the remaining value spills
into continuation bytes. -/
def bitTaggedVarintEncode (P tag value : Nat) : List Nat :=
  let low := value % 2 ^ (7 - P)
  let rest := value / 2 ^ (7 - P)
  let tagBits := (tag % 2 ^ P) * 2 ^ (7 - P)
  if rest = 0 then [tagBits + low] else (128 + tagBits + low) :: varintCont rest

/-- Modelled from the spec: `varint_encode` (`varint.hpp`, absent from
`src/`) is the `P = 0` member of the family — the standard LEB128-style
unsigned varint. -/
def varint_encode (v : Nat) : List Nat := bitTaggedVarintEncode 0 0 v

/-- An output byte sink with the `std::ostream` failure flag: a write on a
stream whose failbit is set is a no-op. -/
structure ostream where
  bytes : List Nat
  good : Bool
deriving DecidableEq, Repr

/-- `std::ostream::write`: append the bytes when the stream is healthy,
otherwise do nothing. -/
def ostream.write (os : ostream) (bs : List Nat) : ostream :=
  if os.good then { os with bytes := os.bytes ++ bs } else os

/-- The state of `vc::cmf::writer` (cmf_reader.hpp:203-248) apart from the
stream it owns: the sample count and the ploidy captured at
construction. -/
structure writer where
  sample_size : Nat
  ploidy_level : Nat
deriving DecidableEq, Repr

/-- The magic and version bytes `"cvcf\x00\x01\x00\x00"`
(cmf_reader.hpp:212). -/
def magicBytes : List Nat := [99, 118, 99, 102, 0, 1, 0, 0]

/-- The `vc::cmf::writer` constructor (cmf_reader.hpp:206-229): write the
magic/version, the varint-prefixed chromosome, the varint ploidy, the
varint sample count followed by the length-prefixed sample names, and the
varint metadata-field count — always 0, the `TODO: metadata fields`
of cmf_reader.hpp:228 — to the output stream, in that order. -/
def writerInit (os : ostream) (chrom : List Nat) (ploidy : Nat)
    (samples : List (List Nat)) : writer × ostream :=
  let os1 := os.write magicBytes
  let os2 := os1.write (varint_encode chrom.length)
  let os3 := os2.write chrom
  let os4 := os3.write (varint_encode ploidy)
  let os5 := os4.write (varint_encode samples.length)
  let os6 := samples.foldl (fun o s => (o.write (varint_encode s.length)).write s) os5
  let os7 := os6.write (varint_encode 0)
  (⟨samples.length, ploidy⟩, os7)

/-- Modelled from the spec: the per-entry delta encoding of §4.C — for
each entry in ascending offset order, a 1-bit-tagged varint whose tag is
1 for `has_alt` and 0 for `is_missing` and whose value is the offset
delta from the previous entry (the first delta is the absolute
offset). -/
def deltaEncodeAux : List sparse_vector_allele → Nat → List Nat
  | [], _ => []
  | e :: rest, prev =>
    bitTaggedVarintEncode 1 (if e.status = allele_status.has_alt then 1 else 0)
      (e.offset - prev) ++ deltaEncodeAux rest e.offset

/-- Modelled from the spec: `marker::write` is declared at
cmf_reader.hpp:129 but its definition is not under `src/`; spec §4.C gives
the on-wire form: varint position, varint-prefixed ref and alt, the
varint entry count (the plain-count variant), then the tagged offset
deltas. -/
def marker.writeBytes (m : marker) : List Nat :=
  varint_encode m.position ++ varint_encode m.ref.length ++ m.ref ++
    varint_encode m.alt.length ++ m.alt ++
    varint_encode m.non_zero_haplotypes.length ++
    deltaEncodeAux m.non_zero_haplotypes 0

/-- `writer::operator<<` (cmf_reader.hpp:231-241): when the stream is
healthy, compare the marker's haplotype count against
`sample_size_ * ploidy_level_` (a `uint64` product, hence the reduction
modulo `2 ^ 64`); set the failbit on mismatch, otherwise serialize the
marker; when the stream is not healthy, do nothing. -/
def writerPut (w : writer) (os : ostream) (m : marker) : ostream :=
  if os.good then
    if m.haplotype_count ≠ (w.sample_size * w.ploidy_level) % 2 ^ 64 then
      { os with good := false }
    else os.write m.writeBytes
  else os

theorem ostream_write_good (os : ostream) (bs : List Nat) (h : os.good = true) :
    os.write bs = ⟨os.bytes ++ bs, true⟩ := by
  unfold ostream.write
  rw [if_pos h]
  cases os
  simp_all

theorem foldl_write_samples (samples : List (List Nat)) (os : ostream)
    (h : os.good = true) :
    (samples.foldl (fun o s => (o.write (varint_encode s.length)).write s) os) =
      ⟨os.bytes ++ (samples.map (fun s => varint_encode s.length ++ s)).flatten,
        true⟩ := by
  induction samples generalizing os with
  | nil =>
    cases os
    simp_all
  | cons s rest ih =>
    rw [List.foldl_cons]
    rw [ostream_write_good os _ h, ostream_write_good _ s rfl]
    rw [ih _ rfl]
    simp [List.append_assoc]

/-- C9: on construction with a healthy empty sink, the writer emits
exactly — and in this order — the 8 magic/version bytes
`"cvcf\x00\x01\x00\x00"`, the varint-encoded chromosome length followed by
the chromosome bytes, the varint-encoded ploidy, the varint-encoded sample
count followed by one length-prefixed record per sample name, and the
varint-encoded metadata-field count, which is always 0 and is followed by
the corresponding zero descriptors; nothing else is written, the sink
stays healthy, and the writer captures the sample count and ploidy. -/
theorem writer_header_c9 (chrom : List Nat) (ploidy : Nat)
    (samples : List (List Nat)) (_hp : ploidy < 256) :
    (writerInit ⟨[], true⟩ chrom ploidy samples).2.bytes =
      magicBytes ++ varint_encode chrom.length ++ chrom ++ varint_encode ploidy ++
      varint_encode samples.length ++
      (samples.map (fun s => varint_encode s.length ++ s)).flatten ++
      varint_encode 0 ∧
    (writerInit ⟨[], true⟩ chrom ploidy samples).2.good = true ∧
    (writerInit ⟨[], true⟩ chrom ploidy samples).1.sample_size = samples.length ∧
    (writerInit ⟨[], true⟩ chrom ploidy samples).1.ploidy_level = ploidy := by
  simp only [writerInit]
  rw [ostream_write_good ⟨[], true⟩ magicBytes rfl]
  rw [ostream_write_good _ (varint_encode chrom.length) rfl]
  rw [ostream_write_good _ chrom rfl]
  rw [ostream_write_good _ (varint_encode ploidy) rfl]
  rw [ostream_write_good _ (varint_encode samples.length) rfl]
  rw [foldl_write_samples samples _ rfl]
  rw [ostream_write_good _ (varint_encode 0) rfl]
  simp [List.append_assoc]

/-- Witness for C9 with chromosome "20", ploidy 2 and two sample names
("s1", "s2"): the produced header bytes are exactly the concatenation the
claim lists. -/
theorem writer_header_c9_witness :
    (2 < 256) ∧
    (writerInit ⟨[], true⟩ [50, 48] 2 [[115, 49], [115, 50]]).2.bytes =
      magicBytes ++ varint_encode 2 ++ [50, 48] ++ varint_encode 2 ++
      varint_encode 2 ++
      ([[115, 49], [115, 50]].map (fun s => varint_encode s.length ++ s)).flatten ++
      varint_encode 0 := by
  have h := writer_header_c9 [50, 48] 2 [[115, 49], [115, 50]] (by norm_num)
  exact ⟨by norm_num, h.1⟩

/-- C4: `operator<<` on a writer whose sink is not healthy is a no-op; on
a healthy sink, a marker whose haplotype count differs from
`sample_count * ploidy` sets the failbit and writes no bytes, so the
stream still holds exactly what was written before; a matching marker is
serialized and appended; and once the sink has failed, any sequence of
subsequent writes leaves the byte sequence unchanged and the sink
failed. -/
theorem writer_put_c4 (w : writer) (os : ostream) (m : marker)
    (hsp : w.sample_size * w.ploidy_level < 2 ^ 64) :
    (os.good = false → writerPut w os m = os) ∧
    (os.good = true → m.haplotype_count ≠ w.sample_size * w.ploidy_level →
      (writerPut w os m).bytes = os.bytes ∧ (writerPut w os m).good = false) ∧
    (os.good = true → m.haplotype_count = w.sample_size * w.ploidy_level →
      writerPut w os m = ⟨os.bytes ++ m.writeBytes, true⟩) ∧
    (∀ ms : List marker, os.good = false →
      (ms.foldl (writerPut w) os).bytes = os.bytes ∧
      (ms.foldl (writerPut w) os).good = false) := by
  have hmod : (w.sample_size * w.ploidy_level) % 2 ^ 64 =
      w.sample_size * w.ploidy_level := Nat.mod_eq_of_lt hsp
  refine ⟨?_, ?_, ?_, ?_⟩
  · intro h
    unfold writerPut
    rw [if_neg (by rw [h]; exact Bool.false_ne_true)]
  · intro hg hne
    unfold writerPut
    rw [if_pos hg, if_pos (by rw [hmod]; exact hne)]
    exact ⟨rfl, rfl⟩
  · intro hg heq
    unfold writerPut
    rw [if_pos hg, if_neg (by rw [hmod]; exact fun hc => hc heq)]
    exact ostream_write_good os _ hg
  · intro ms h
    induction ms generalizing os with
    | nil => exact ⟨rfl, h⟩
    | cons m0 rest ih =>
      rw [List.foldl_cons]
      have hput : writerPut w os m0 = os := by
        unfold writerPut
        rw [if_neg (by rw [h]; exact Bool.false_ne_true)]
      rw [hput]
      exact ih os h

/-- The error kind of the sparse marker constructor: caller-side misuse
(the C++ code throws `std::range_error`, which spec §7 classifies as
`INVALID_INPUT`). -/
inductive markerError where
  | invalid_input
deriving DecidableEq, Repr

/-- The copy loop of the sparse marker constructor (cmf_reader.hpp:104-111):
walk the input entries, copying each entry whose status is not `has_ref`
and failing at the first entry whose status is `has_ref`. -/
def copySparse : List sparse_vector_allele → Except markerError (List sparse_vector_allele)
  | [] => Except.ok []
  | e :: rest =>
    if e.status ≠ allele_status.has_ref then
      match copySparse rest with
      | Except.ok r => Except.ok (e :: r)
      | Except.error err => Except.error err
    else Except.error markerError.invalid_input

/-- The sparse marker constructor (cmf_reader.hpp:96-115): copy the input
entries, rejecting `has_ref` entries, then fail if the declared total
haplotype count is below the number of stored entries; on success the
marker holds exactly the given fields. -/
def marker.ofSparse (pos : Nat) (r a : List Nat)
    (entries : List sparse_vector_allele) (total : Nat) : Except markerError marker :=
  match copySparse entries with
  | Except.error err => Except.error err
  | Except.ok nzh =>
    if total < nzh.length then Except.error markerError.invalid_input
    else Except.ok ⟨pos, r, a, total, nzh⟩

theorem copySparse_ok_of_no_ref (entries : List sparse_vector_allele)
    (h : ∀ e ∈ entries, e.status ≠ allele_status.has_ref) :
    copySparse entries = Except.ok entries := by
  induction entries with
  | nil => rfl
  | cons e rest ih =>
    have he : e.status ≠ allele_status.has_ref := h e (List.mem_cons_self _ _)
    have ih' := ih (fun x hx => h x (List.mem_cons_of_mem _ hx))
    simp only [copySparse, if_pos he, ih']

theorem copySparse_error_of_ref (entries : List sparse_vector_allele)
    (h : ∃ e ∈ entries, e.status = allele_status.has_ref) :
    copySparse entries = Except.error markerError.invalid_input := by
  induction entries with
  | nil => simp at h
  | cons e rest ih =>
    by_cases he : e.status = allele_status.has_ref
    · simp only [copySparse, if_neg (not_not_intro he)]
    · obtain ⟨x, hx, hxr⟩ := h
      rcases List.mem_cons.mp hx with rfl | hx'
      · exact absurd hxr he
      · have ih' := ih ⟨x, hx', hxr⟩
        simp only [copySparse, if_pos he, ih']

theorem copySparse_ok_eq (entries nzh : List sparse_vector_allele)
    (h : copySparse entries = Except.ok nzh) : nzh = entries := by
  induction entries generalizing nzh with
  | nil =>
    simp only [copySparse] at h
    cases h
    rfl
  | cons e rest ih =>
    by_cases he : e.status = allele_status.has_ref
    · simp only [copySparse, if_neg (not_not_intro he)] at h
      cases h
    · simp only [copySparse, if_pos he] at h
      cases hrec : copySparse rest with
      | ok r =>
        rw [hrec] at h
        cases h
        rw [ih r hrec]
      | error err =>
        rw [hrec] at h
        cases h

/-- C6: the sparse marker constructor fails with `INVALID_INPUT` when any
input entry has status `has_ref`, fails with `INVALID_INPUT` when the
given total haplotype count is smaller than the number of entries, and
otherwise succeeds, storing exactly the given entries and the given
haplotype count unchanged. -/
theorem marker_sparse_ctor_c6 (pos : Nat) (r a : List Nat)
    (entries : List sparse_vector_allele) (total : Nat) :
    ((∃ e ∈ entries, e.status = allele_status.has_ref) →
      marker.ofSparse pos r a entries total = Except.error markerError.invalid_input) ∧
    (total < entries.length →
      marker.ofSparse pos r a entries total = Except.error markerError.invalid_input) ∧
    ((∀ e ∈ entries, e.status ≠ allele_status.has_ref) → entries.length ≤ total →
      marker.ofSparse pos r a entries total =
        Except.ok ⟨pos, r, a, total, entries⟩) := by
  refine ⟨?_, ?_, ?_⟩
  · intro h
    unfold marker.ofSparse
    rw [copySparse_error_of_ref entries h]
  · intro h
    unfold marker.ofSparse
    cases hcs : copySparse entries with
    | error err => cases err; rfl
    | ok nzh =>
      rw [copySparse_ok_eq entries nzh hcs]
      simp [h]
  · intro hno hle
    unfold marker.ofSparse
    rw [copySparse_ok_of_no_ref entries hno]
    simp [Nat.not_lt.mpr hle]

/-- Witness for C6: two valid entries with total 4 construct the marker
unchanged; a `has_ref` entry is rejected; total 1 below the entry count 2
is rejected. -/
theorem marker_sparse_ctor_c6_witness :
    marker.ofSparse 7 [65] [71]
      [⟨0, allele_status.has_alt⟩, ⟨2, allele_status.is_missing⟩] 4 =
      Except.ok ⟨7, [65], [71], 4,
        [⟨0, allele_status.has_alt⟩, ⟨2, allele_status.is_missing⟩]⟩ ∧
    marker.ofSparse 7 [65] [71] [⟨1, allele_status.has_ref⟩] 4 =
      Except.error markerError.invalid_input ∧
    marker.ofSparse 7 [65] [71]
      [⟨0, allele_status.has_alt⟩, ⟨2, allele_status.is_missing⟩] 1 =
      Except.error markerError.invalid_input := by
  refine ⟨?_, ?_, ?_⟩
  · exact (marker_sparse_ctor_c6 7 [65] [71] _ 4).2.2 (by decide) (by decide)
  · exact (marker_sparse_ctor_c6 7 [65] [71] _ 4).1
      ⟨⟨1, allele_status.has_ref⟩, by decide, rfl⟩
  · exact (marker_sparse_ctor_c6 7 [65] [71] _ 1).2.1 (by decide)

/-- Witness for C4, the scenario S6 of the spec: a writer opened with two
samples of ploidy 2 receives a marker with haplotype count 3; the sink
fails and the bytes written before (standing in for the header) are all
the sink holds. -/
theorem writer_put_c4_witness :
    (2 * 2 < 2 ^ 64) ∧
    (writerPut ⟨2, 2⟩ ⟨[7, 8], true⟩ ⟨123, [65], [71], 3, []⟩).bytes = [7, 8] ∧
    (writerPut ⟨2, 2⟩ ⟨[7, 8], true⟩ ⟨123, [65], [71], 3, []⟩).good = false := by
  have h := writer_put_c4 ⟨2, 2⟩ ⟨[7, 8], true⟩ ⟨123, [65], [71], 3, []⟩ (by norm_num)
  exact ⟨by norm_num, (h.2.1 rfl (by decide)).1, (h.2.1 rfl (by decide)).2⟩

end cmf

namespace cvcf

/-- Modelled from the spec: the sparse entry type of the older `vc::cvcf`
marker (its header, included as cvcf_reader.hpp, is not under `src/`); the
usage in cvcf_reader.cpp:66-71 shows an entry carrying a flag `is_allele`
distinguishing an alternate-allele call (`true`) from a missing call
(`false`). -/
structure sparse_allele where
  offset : Nat
  is_allele : Bool
deriving DecidableEq, Repr

/-- Modelled from the spec: the state of `vc::cvcf::marker` that
`calculate_allele_frequency` reads (cvcf_reader.cpp:61-75): the sample
count, the ploidy and the sparse non-reference entries. -/
structure marker where
  sample_count : Nat
  ploidy_level : Nat
  non_zero_haplotypes : List sparse_allele
deriving DecidableEq, Repr

/-- The exact value of an IEEE double produced by dividing two
nonnegative integer-valued doubles: a finite rational, `+inf` for a
positive numerator over zero, or NaN for `0.0 / 0.0`. -/
inductive doubleVal where
  | finite (q : Rat)
  | posInf
  | nan
deriving DecidableEq, Repr

/-- Division of two exactly-represented nonnegative integers in double
precision, with the IEEE zero-denominator cases made explicit. -/
def divDouble (a b : Nat) : doubleVal :=
  if b = 0 then (if a = 0 then doubleVal.nan else doubleVal.posInf)
  else doubleVal.finite ((a : Rat) / (b : Rat))

/-- The loop of `calculate_allele_frequency` (cvcf_reader.cpp:66-72):
count the alternate-allele entries and decrement the running total — a
`uint64`, hence the wrapping decrement — for every missing entry. -/
def cafLoop : List sparse_allele → Nat → Nat → Nat × Nat
  | [], cnt, total => (cnt, total)
  | e :: rest, cnt, total =>
    if e.is_allele then cafLoop rest (cnt + 1) total
    else cafLoop rest cnt ((total + (2 ^ 64 - 1)) % 2 ^ 64)

/-- `vc::cvcf::marker::calculate_allele_frequency` (cvcf_reader.cpp:61-75):
start the total at `sample_count_ * ploidy_level_` (a `uint64` product),
run the counting loop, and return the double quotient. -/
def marker.calculate_allele_frequency (m : marker) : doubleVal :=
  let res := cafLoop m.non_zero_haplotypes 0 ((m.sample_count * m.ploidy_level) % 2 ^ 64)
  divDouble res.1 res.2

theorem cafLoop_eq (es : List sparse_allele) (cnt total : Nat)
    (hm : es.countP (fun e => !e.is_allele) ≤ total) (hlt : total < 2 ^ 64) :
    cafLoop es cnt total =
      (cnt + es.countP (fun e => e.is_allele),
       total - es.countP (fun e => !e.is_allele)) := by
  induction es generalizing cnt total with
  | nil => simp [cafLoop]
  | cons e rest ih =>
    by_cases he : e.is_allele = true
    · have hcA : (e :: rest).countP (fun x => x.is_allele) =
          rest.countP (fun x => x.is_allele) + 1 :=
        List.countP_cons_of_pos _ _ (by simpa using he)
      have hcM : (e :: rest).countP (fun x => !x.is_allele) =
          rest.countP (fun x => !x.is_allele) :=
        List.countP_cons_of_neg _ _ (by simp [he])
      have h1 : cafLoop (e :: rest) cnt total = cafLoop rest (cnt + 1) total := by
        simp [cafLoop, he]
      rw [hcM] at hm
      rw [h1, ih (cnt + 1) total hm hlt, hcA, hcM]
      simp only [Prod.mk.injEq]
      exact ⟨by omega, by simp⟩
    · have hcA : (e :: rest).countP (fun x => x.is_allele) =
          rest.countP (fun x => x.is_allele) :=
        List.countP_cons_of_neg _ _ (by simpa using he)
      have hcM : (e :: rest).countP (fun x => !x.is_allele) =
          rest.countP (fun x => !x.is_allele) + 1 :=
        List.countP_cons_of_pos _ _ (by simp [he])
      have h1 : cafLoop (e :: rest) cnt total =
          cafLoop rest cnt ((total + (2 ^ 64 - 1)) % 2 ^ 64) := by
        simp [cafLoop, he]
      rw [hcM] at hm
      have hwrap : (total + (2 ^ 64 - 1)) % 2 ^ 64 = total - 1 := by omega
      rw [h1, hwrap, ih cnt (total - 1) (by omega) (by omega), hcA, hcM]
      simp only [Prod.mk.injEq]
      exact ⟨by simp, by omega⟩

/-- C5: for a marker satisfying the marker invariant (stored entries no
more numerous than the haplotype count, with the `uint64` total in
range), `calculate_allele_frequency` returns `A / (haplotype_count − M)`
— where `A` counts the `HAS_ALT` (is_allele) entries and `M` the
`IS_MISSING` ones and the haplotype count is `sample_count * ploidy` —
and NaN when the denominator is zero.  Doubles are modelled as exact
extended rationals. -/
theorem cvcf_allele_frequency_c5 (m : marker)
    (hlen : m.non_zero_haplotypes.length ≤ m.sample_count * m.ploidy_level)
    (hsz : m.sample_count * m.ploidy_level < 2 ^ 64) :
    m.calculate_allele_frequency =
      if m.sample_count * m.ploidy_level -
          m.non_zero_haplotypes.countP (fun e => !e.is_allele) = 0
      then doubleVal.nan
      else doubleVal.finite
        ((m.non_zero_haplotypes.countP (fun e => e.is_allele) : Rat) /
         ((m.sample_count * m.ploidy_level -
           m.non_zero_haplotypes.countP (fun e => !e.is_allele) : Nat) : Rat)) := by
  have hsum : m.non_zero_haplotypes.length =
      m.non_zero_haplotypes.countP (fun e => e.is_allele) +
      m.non_zero_haplotypes.countP (fun e => !e.is_allele) := by
    have := List.length_eq_countP_add_countP (fun e => e.is_allele)
      (l := m.non_zero_haplotypes)
    simpa using this
  have hm : m.non_zero_haplotypes.countP (fun e => !e.is_allele) ≤
      (m.sample_count * m.ploidy_level) % 2 ^ 64 := by
    rw [Nat.mod_eq_of_lt hsz]
    omega
  unfold marker.calculate_allele_frequency
  rw [cafLoop_eq _ 0 _ hm (by rw [Nat.mod_eq_of_lt hsz]; exact hsz)]
  rw [Nat.mod_eq_of_lt hsz]
  simp only [Nat.zero_add]
  unfold divDouble
  by_cases hz : m.sample_count * m.ploidy_level -
      m.non_zero_haplotypes.countP (fun e => !e.is_allele) = 0
  · rw [if_pos hz, if_pos hz, if_pos (by omega)]
  · rw [if_neg hz, if_neg hz]

/-- Witness for C5 at the S3-style marker: 3 samples of ploidy 2 with one
alternate call and one missing call give frequency 1 / (6 − 1) = 0.2. -/
theorem cvcf_allele_frequency_c5_witness :
    ([⟨1, true⟩, ⟨4, false⟩] : List sparse_allele).length ≤ 3 * 2 ∧
    (marker.mk 3 2 [⟨1, true⟩, ⟨4, false⟩]).calculate_allele_frequency =
      doubleVal.finite (1 / 5) := by
  have h := cvcf_allele_frequency_c5 ⟨3, 2, [⟨1, true⟩, ⟨4, false⟩]⟩
    (by norm_num) (by norm_num)
  refine ⟨by norm_num, ?_⟩
  rw [h]
  norm_num

end cvcf

end vc
